import Mathlib

/-!
Verification of the THORChain manual protobuf encoder
(`src/Working_Implementation.py`, class `THORChainProtobuf`).

Bytes are modelled as `Nat` (each produced byte is proven/evaluated to lie
below 256 where it matters), byte strings as `List Nat`, Python `str` as
`String`. Python integers are arbitrary precision, so the varint codec is
embedded over `Nat` for the unsigned domain and over `Int` for the full
domain of the Python function (`%` on `Int` in Lean is euclidean mod, which
agrees with Python `%` for a positive modulus, and `/` is euclidean
division, which agrees with Python floor division `>>` for a positive
divisor). Fallible code (`raise ValueError`) is modelled with `Except`.
-/

/-- Loop body of `encode_varint`, driven by fuel. The Python source is
`while value > 127: result += pack(value & 0x7F | 0x80); value >>= 7`
followed by `result += pack(value & 0x7F)`; each iteration divides `value`
by 128, so `value` itself is sufficient fuel, and the fuel-0 fallback
`[value &&& 127]` is only reachable with `value = 0`, where it coincides
with the loop exit. -/
def encodeVarintFuel : Nat → Nat → List Nat
  | 0, value => [value &&& 127]
  | fuel + 1, value =>
    if 127 < value then ((value &&& 127) ||| 128) :: encodeVarintFuel fuel (value >>> 7)
    else [value &&& 127]

/-- `THORChainProtobuf.encode_varint` on its unsigned domain (`value >= 0`). -/
def encode_varint (value : Nat) : List Nat :=
  encodeVarintFuel value value

/-- `THORChainProtobuf.encode_varint` on the full domain of the Python
function (any `int`). For a negative argument the `while value > 127` loop
never runs, and the function returns the single byte `value & 0x7F`, which
in Python is the euclidean residue `value % 128`. -/
def encode_varint_int (value : Int) : List Nat :=
  if 127 < value then
    ((value % 128) + 128).toNat :: encode_varint_int (value / 128)
  else
    [(value % 128).toNat]
termination_by value.toNat
decreasing_by
  simp_wf
  omega

/-- The error taxonomy of `thor_address_to_bytes` (the spec's
`AddressFormatError` reasons). In the source all three are `ValueError`
with distinct messages: bad `thor1` human-readable part, remainder not 40
characters, `bytes.fromhex` failure. -/
inductive AddrError where
  | hrpMismatch : AddrError
  | wrongLength : AddrError
  | invalidHex : AddrError
  deriving DecidableEq

/-- ASCII whitespace as skipped by Python `bytes.fromhex`
(space, tab, newline, carriage return, vertical tab, form feed). -/
def isAsciiWs (c : Char) : Bool :=
  decide (c.toNat = 32 ∨ c.toNat = 9 ∨ c.toNat = 10 ∨ c.toNat = 13 ∨
    c.toNat = 11 ∨ c.toNat = 12)

/-- Value of a hexadecimal digit character, `none` for non-hex characters
(Python `bytes.fromhex` accepts `0-9`, `a-f`, `A-F`). -/
def hexVal (c : Char) : Option Nat :=
  if 48 ≤ c.toNat ∧ c.toNat ≤ 57 then some (c.toNat - 48)
  else if 97 ≤ c.toNat ∧ c.toNat ≤ 102 then some (c.toNat - 87)
  else if 65 ≤ c.toNat ∧ c.toNat ≤ 70 then some (c.toNat - 55)
  else none

/-- Python `bytes.fromhex`: reads hex-digit pairs into bytes, skipping
ASCII whitespace between pairs (but not between the two digits of a pair);
any other character, or a trailing lone digit, raises `ValueError`
(modelled as `none`). -/
def bytes_fromhex : List Char → Option (List Nat)
  | [] => some []
  | c :: cs =>
    if isAsciiWs c then bytes_fromhex cs
    else
      match hexVal c with
      | none => none
      | some hi =>
        match cs with
        | [] => none
        | d :: cs2 =>
          match hexVal d with
          | none => none
          | some lo =>
            match bytes_fromhex cs2 with
            | none => none
            | some bs => some ((16 * hi + lo) :: bs)

/-- The human-readable part checked by `bech32_addr.startswith('thor1')`. -/
def thorHrp : List Char := ['t', 'h', 'o', 'r', '1']

/-- `THORChainProtobuf.thor_address_to_bytes`: check the literal `thor1`
head, take the remainder, require 40 characters, hex-decode it. -/
def thor_address_to_bytes (bech32_addr : String) : Except AddrError (List Nat) :=
  if bech32_addr.data.take 5 = thorHrp then
    if (bech32_addr.data.drop 5).length = 40 then
      match bytes_fromhex (bech32_addr.data.drop 5) with
      | some bs => Except.ok bs
      | none => Except.error AddrError.invalidHex
    else Except.error AddrError.wrongLength
  else Except.error AddrError.hrpMismatch

/-- UTF-8 encoding of one scalar value (Python `str.encode('utf-8')`,
per character). -/
def utf8EncodeChar (c : Char) : List Nat :=
  if c.toNat < 128 then [c.toNat]
  else if c.toNat < 2048 then
    [192 ||| (c.toNat >>> 6), 128 ||| (c.toNat &&& 63)]
  else if c.toNat < 65536 then
    [224 ||| (c.toNat >>> 12), 128 ||| ((c.toNat >>> 6) &&& 63), 128 ||| (c.toNat &&& 63)]
  else
    [240 ||| (c.toNat >>> 18), 128 ||| ((c.toNat >>> 12) &&& 63),
      128 ||| ((c.toNat >>> 6) &&& 63), 128 ||| (c.toNat &&& 63)]

/-- Python `s.encode('utf-8')` as a byte list. -/
def utf8Encode (s : String) : List Nat :=
  (s.data.map utf8EncodeChar).flatten

/-- One length-delimited protobuf field as emitted inline throughout the
source: `struct.pack('<B', tag) + self.encode_varint(len(payload)) + payload`. -/
def lenField (tag : Nat) (payload : List Nat) : List Nat :=
  tag :: (encode_varint payload.length ++ payload)

/-- One varint protobuf field as emitted inline in the source:
`struct.pack('<B', tag) + self.encode_varint(value)`. -/
def varintField (tag : Nat) (value : Nat) : List Nat :=
  tag :: encode_varint value

/-- A repeated length-delimited field: the source's
`for x in xs: out += pack(tag) + encode_varint(len(x)) + x` loop. -/
def repeatedLenFields (tag : Nat) : List (List Nat) → List Nat
  | [] => []
  | m :: rest => lenField tag m ++ repeatedLenFields tag rest

/-- Body of `create_thor_msgsend` after both addresses have decoded:
field 1 (tag `0x0a`) carries the from-bytes, field 2 (tag `0x12`) the
to-bytes; field 3 (amount) is omitted by the source. -/
def msgsend_fields (from_bytes to_bytes : List Nat) : List Nat :=
  lenField 0x0a from_bytes ++ lenField 0x12 to_bytes

/-- `THORChainProtobuf.create_thor_msgsend`: decode both addresses
(propagating the `ValueError`), then emit the two fields. -/
def create_thor_msgsend (from_addr to_addr : String) : Except AddrError (List Nat) := do
  let from_bytes ← thor_address_to_bytes from_addr
  let to_bytes ← thor_address_to_bytes to_addr
  return msgsend_fields from_bytes to_bytes

/-- `THORChainProtobuf.create_any_message`: field 1 (tag `0x0a`) is the
UTF-8 type URL, field 2 (tag `0x12`) the serialized inner message. -/
def create_any_message (type_url : String) (message_bytes : List Nat) : List Nat :=
  lenField 0x0a (utf8Encode type_url) ++ lenField 0x12 message_bytes

/-- `THORChainProtobuf.create_tx_body`: repeated field 1 (tag `0x0a`) for
the messages, field 2 (tag `0x12`) for the UTF-8 memo, field 3
(tag `0x18`, wire type 0) for the constant timeout height 0. -/
def create_tx_body (messages : List (List Nat)) (memo : String) : List Nat :=
  repeatedLenFields 0x0a messages ++
    (lenField 0x12 (utf8Encode memo) ++ varintField 0x18 0)

/-- `THORChainProtobuf.create_auth_info`: a minimal signer info holding
only field 3 (tag `0x18`, the sequence) and a minimal fee holding only
field 2 (tag `0x10`, the gas limit), each wrapped length-delimited into
`AuthInfo` fields 1 (tag `0x0a`) and 2 (tag `0x12`). -/
def create_auth_info (sequence gas_limit : Nat) : List Nat :=
  lenField 0x0a (varintField 0x18 sequence) ++ lenField 0x12 (varintField 0x10 gas_limit)

/-- `THORChainProtobuf.create_tx_raw`: field 1 (tag `0x0a`) body bytes,
field 2 (tag `0x12`) auth-info bytes, repeated field 3 (tag `0x1a`) one
entry per signature in list order. -/
def create_tx_raw (tx_body auth_info : List Nat) (signatures : List (List Nat)) : List Nat :=
  lenField 0x0a tx_body ++ (lenField 0x12 auth_info ++ repeatedLenFields 0x1a signatures)

/-- `THORChainProtobuf.create_thor_transaction` up to (excluding) the final
base64 transport encoding: MsgSend, wrapped in an Any with the hard-coded
type URL `/types.MsgSend`, into a body with the caller's memo, with
`create_auth_info()` defaults (sequence 0, gas limit 200000) and one dummy
signature of 64 zero bytes. -/
def create_thor_tx_raw (from_addr to_addr memo : String) : Except AddrError (List Nat) := do
  let msg_send ← create_thor_msgsend from_addr to_addr
  let any_msg := create_any_message "/types.MsgSend" msg_send
  let tx_body := create_tx_body [any_msg] memo
  let auth_info := create_auth_info 0 200000
  let signature := List.replicate 64 0
  return create_tx_raw tx_body auth_info [signature]

/-- The base64 alphabet used by `base64.b64encode`. -/
def base64Chars : List Char :=
  "ABCDEFGHIJKLMNOPQRSTUVWXYZabcdefghijklmnopqrstuvwxyz0123456789+/".data

/-- One base64 alphabet character (all indices produced below are < 64). -/
def base64Char (n : Nat) : Char := base64Chars.getD n 'A'

/-- `base64.b64encode` processed three input bytes at a time, with `=`
padding for a short trailing group. -/
def base64Group : List Nat → List Char
  | [] => []
  | [a] => [base64Char (a >>> 2), base64Char ((a &&& 3) <<< 4), '=', '=']
  | [a, b] => [base64Char (a >>> 2), base64Char (((a &&& 3) <<< 4) ||| (b >>> 4)),
      base64Char ((b &&& 15) <<< 2), '=']
  | a :: b :: c :: rest =>
    base64Char (a >>> 2) :: base64Char (((a &&& 3) <<< 4) ||| (b >>> 4)) ::
      base64Char (((b &&& 15) <<< 2) ||| (c >>> 6)) :: base64Char (c &&& 63) ::
        base64Group rest

/-- `base64.b64encode(...).decode('utf-8')`. -/
def base64Encode (bs : List Nat) : String := String.mk (base64Group bs)

/-- `THORChainProtobuf.create_thor_transaction`: the raw transaction bytes,
base64-encoded for RPC transport. -/
def create_thor_transaction (from_addr to_addr memo : String) : Except AddrError String :=
  Except.map base64Encode (create_thor_tx_raw from_addr to_addr memo)

/-- An ambient environment for the determinism claim. -/
structure World where
  timeMillis : Nat
  entropy : Nat → Nat
  stdoutLineCount : Nat

/-- `create_thor_transaction` as run inside a process: the source performs
`print` calls (modelled as growth of the stdout line count, the lines being
functions of the arguments only) and never reads a clock, random source or
any other ambient state, so the returned value component is computed from
the three string arguments alone. -/
def create_thor_transaction_run (w : World) (from_addr to_addr memo : String) :
    World × Except AddrError String :=
  (⟨w.timeMillis, w.entropy, w.stdoutLineCount + 7⟩,
    create_thor_transaction from_addr to_addr memo)

/-- Modelled from the spec: `WriteLengthDelimited(field_number, payload)`
of spec §4.2 — the source has no generic wire-field writer (it hard-codes
each tag byte inline), so the generic form `varint(tag)` then
`varint(len(payload))` then `payload` with `tag = (field_number << 3) | 2`
is taken from the spec's words. -/
def writeLengthDelimited (field_number : Nat) (payload : List Nat) : List Nat :=
  encode_varint ((field_number <<< 3) ||| 2) ++ (encode_varint payload.length ++ payload)

/-- A decoded protobuf field value: wire type 0 (varint) or wire type 2
(length-delimited payload). -/
inductive PBValue where
  | varint : Nat → PBValue
  | lenDelim : List Nat → PBValue
  deriving DecidableEq

/-- Modelled from the spec: the accumulator loop of a reference base-128
varint decoder (spec §3 "Varint" and §8's reference `decode`) — the source
is write-only and contains no decoder. Each byte contributes its low 7
bits at the current shift; a byte with the continuation bit clear ends the
value. -/
def parseVarintGo : List Nat → Nat → Nat → Option (Nat × List Nat)
  | [], _, _ => none
  | b :: bs, shift, acc =>
    if b < 128 then some (acc + b <<< shift, bs)
    else parseVarintGo bs (shift + 7) (acc + (b &&& 127) <<< shift)

/-- Modelled from the spec: reference varint decoder, returning the decoded
value and the unconsumed remainder of the stream. -/
def parseVarint (bs : List Nat) : Option (Nat × List Nat) :=
  parseVarintGo bs 0 0

/-- Modelled from the spec: one pass of a standard protobuf message parser
over the wire types the encoder uses (spec §3 "Field Tag": wire types 0 and
2). Reads a varint tag, splits it into field number (`tag >>> 3`) and wire
type (`tag &&& 7`), then reads a varint value (wire type 0) or a varint
length followed by exactly that many payload bytes (wire type 2). Each
field consumes at least one byte, so the input length is sufficient fuel. -/
def parseFieldsGo : Nat → List Nat → Option (List (Nat × PBValue))
  | _, [] => some []
  | 0, _ :: _ => none
  | fuel + 1, b :: bs =>
    match parseVarint (b :: bs) with
    | none => none
    | some (tag, rest) =>
      if tag &&& 7 = 0 then
        match parseVarint rest with
        | none => none
        | some (v, rest2) =>
          match parseFieldsGo fuel rest2 with
          | none => none
          | some fields => some ((tag >>> 3, PBValue.varint v) :: fields)
      else if tag &&& 7 = 2 then
        match parseVarint rest with
        | none => none
        | some (n, rest2) =>
          if n ≤ rest2.length then
            match parseFieldsGo fuel (rest2.drop n) with
            | none => none
            | some fields => some ((tag >>> 3, PBValue.lenDelim (rest2.take n)) :: fields)
          else none
      else none

/-- Modelled from the spec: parse a whole message into its field list. -/
def parseMessage (bs : List Nat) : Option (List (Nat × PBValue)) :=
  parseFieldsGo bs.length bs

/-! ### Arithmetic readings of the bit operations used by the codec -/

/-- `value & 0x7F` is the residue mod 128. -/
theorem and127_eq_mod (v : Nat) : v &&& 127 = v % 128 := by
  have h := Nat.and_pow_two_sub_one_eq_mod v 7
  norm_num at h
  exact h

/-- `value >> 7` is division by 128. -/
theorem shr7_eq_div (v : Nat) : v >>> 7 = v / 128 := by
  have h := Nat.shiftRight_eq_div_pow v 7
  norm_num at h
  exact h

/-- Setting the continuation bit on a 7-bit group adds 128. -/
theorem lor128_eq_add {v : Nat} (h : v < 128) : v ||| 128 = v + 128 := by
  have hall : ∀ w < 128, w ||| 128 = w + 128 := by decide
  exact hall v h

/-- The fuel argument of `encodeVarintFuel` is irrelevant once it is at
least the encoded value. -/
theorem encodeVarintFuel_congr (f g v : Nat) (hf : v ≤ f) (hg : v ≤ g) :
    encodeVarintFuel f v = encodeVarintFuel g v := by
  induction f generalizing g v with
  | zero =>
    have hv : v = 0 := Nat.le_zero.mp hf
    subst hv
    cases g with
    | zero => rfl
    | succ g => simp [encodeVarintFuel]
  | succ f ih =>
    cases g with
    | zero =>
      have hv : v = 0 := Nat.le_zero.mp hg
      subst hv
      simp [encodeVarintFuel]
    | succ g =>
      simp only [encodeVarintFuel]
      by_cases h : 127 < v
      · rw [if_pos h, if_pos h]
        have hdiv : v >>> 7 < v := by
          rw [shr7_eq_div]
          exact Nat.div_lt_self (by omega) (by norm_num)
        rw [ih g (v >>> 7) (by omega) (by omega)]
      · rw [if_neg h, if_neg h]

/-- The defining recurrence of `encode_varint`, in arithmetic form: emit
`value % 128` with the continuation bit (`+ 128`) and recurse on
`value / 128` while `value > 127`, else emit the final byte `value % 128`. -/
theorem encode_varint_eq (v : Nat) :
    encode_varint v =
      if 127 < v then (v % 128 + 128) :: encode_varint (v / 128) else [v % 128] := by
  unfold encode_varint
  cases v with
  | zero => simp [encodeVarintFuel]
  | succ n =>
    simp only [encodeVarintFuel]
    by_cases h : 127 < n + 1
    · rw [if_pos h, if_pos h]
      have h1 : (n + 1) &&& 127 = (n + 1) % 128 := and127_eq_mod (n + 1)
      have h2 : (n + 1) % 128 < 128 := Nat.mod_lt _ (by norm_num)
      rw [h1, lor128_eq_add h2, shr7_eq_div]
      have h3 : (n + 1) / 128 < n + 1 := Nat.div_lt_self (by omega) (by norm_num)
      rw [encodeVarintFuel_congr n ((n + 1) / 128) ((n + 1) / 128) (by omega) (by omega)]
    · rw [if_neg h, if_neg h, and127_eq_mod]

/-- Small values encode as the single byte they are. -/
theorem encode_varint_of_le (v : Nat) (h : v ≤ 127) : encode_varint v = [v] := by
  rw [encode_varint_eq, if_neg (by omega)]
  congr 1
  exact Nat.mod_eq_of_lt (by omega)

/-- Large values: first byte is the low group with the continuation bit. -/
theorem encode_varint_of_gt (v : Nat) (h : 127 < v) :
    encode_varint v = (v % 128 + 128) :: encode_varint (v / 128) := by
  rw [encode_varint_eq, if_pos h]

/-- A varint encoding is never empty. -/
theorem encode_varint_ne_nil (v : Nat) : encode_varint v ≠ [] := by
  rw [encode_varint_eq]
  by_cases h : 127 < v
  · rw [if_pos h]; exact List.cons_ne_nil _ _
  · rw [if_neg h]; exact List.cons_ne_nil _ _

/-! ### Canonicity of the varint encoding (claim C1 support) -/

/-- Dividing by 128 removes exactly 7 bits from the bit length. -/
theorem size_div128 (v : Nat) (h : 128 ≤ v) :
    Nat.size (v / 128) = Nat.size v - 7 := by
  have h8 : 7 < Nat.size v := Nat.lt_size.mpr (by norm_num; omega)
  have hup : Nat.size (v / 128) ≤ Nat.size v - 7 := by
    apply Nat.size_le.mpr
    rw [Nat.div_lt_iff_lt_mul (by norm_num : 0 < 128)]
    have hpow : 2 ^ (Nat.size v - 7) * 128 = 2 ^ Nat.size v := by
      have : (128 : Nat) = 2 ^ 7 := by norm_num
      rw [this, ← pow_add]
      congr 1
      omega
    rw [hpow]
    exact Nat.lt_size_self v
  have hlo : Nat.size v - 8 < Nat.size (v / 128) := by
    apply Nat.lt_size.mpr
    rw [Nat.le_div_iff_mul_le (by norm_num : 0 < 128)]
    have hpow : 2 ^ (Nat.size v - 8) * 128 = 2 ^ (Nat.size v - 1) := by
      have : (128 : Nat) = 2 ^ 7 := by norm_num
      rw [this, ← pow_add]
      congr 1
      omega
    rw [hpow]
    exact Nat.lt_size.mp (by omega)
  omega

/-- The encoding length is the number of 7-bit groups of the bit length,
with a minimum of one byte. -/
theorem encode_varint_length (v : Nat) :
    (encode_varint v).length = max 1 ((Nat.size v + 6) / 7) := by
  induction v using Nat.strong_induction_on with
  | _ v ih =>
    by_cases h : 127 < v
    · rw [encode_varint_of_gt v h]
      have hdiv : v / 128 < v := Nat.div_lt_self (by omega) (by norm_num)
      have hs : Nat.size (v / 128) = Nat.size v - 7 := size_div128 v (by omega)
      have h8 : 7 < Nat.size v := Nat.lt_size.mpr (by norm_num; omega)
      simp only [List.length_cons, ih (v / 128) hdiv, hs]
      omega
    · rw [encode_varint_of_le v (by omega)]
      have hsz : Nat.size v ≤ 7 := Nat.size_le.mpr (by norm_num; omega)
      simp only [List.length_singleton]
      omega

/-- Every byte before the last carries the continuation bit. -/
theorem encode_varint_continuation (v : Nat) :
    ∀ i, i + 1 < (encode_varint v).length → 128 ≤ (encode_varint v).getD i 0 := by
  induction v using Nat.strong_induction_on with
  | _ v ih =>
    intro i hi
    by_cases h : 127 < v
    · rw [encode_varint_of_gt v h] at hi ⊢
      cases i with
      | zero => simp
      | succ j =>
        simp only [List.getD_cons_succ]
        apply ih (v / 128) (Nat.div_lt_self (by omega) (by norm_num))
        simp only [List.length_cons] at hi
        omega
    · rw [encode_varint_of_le v (by omega)] at hi
      simp at hi

/-- The final byte has the continuation bit clear. -/
theorem encode_varint_last (v : Nat) :
    ∀ b, (encode_varint v).getLast? = some b → b < 128 := by
  induction v using Nat.strong_induction_on with
  | _ v ih =>
    intro b hb
    by_cases h : 127 < v
    · rw [encode_varint_of_gt v h] at hb
      have hne : encode_varint (v / 128) ≠ [] := encode_varint_ne_nil _
      cases htl : encode_varint (v / 128) with
      | nil => exact absurd htl hne
      | cons c tl =>
        rw [htl, List.getLast?_cons_cons] at hb
        apply ih (v / 128) (Nat.div_lt_self (by omega) (by norm_num))
        rw [htl]
        exact hb
    · rw [encode_varint_of_le v (by omega)] at hb
      simp only [List.getLast?_singleton, Option.some.injEq] at hb
      omega

/-- The encoding is a single byte exactly for values up to 127. -/
theorem encode_varint_length_one (v : Nat) :
    (encode_varint v).length = 1 ↔ v ≤ 127 := by
  constructor
  · intro h1
    by_contra h
    rw [encode_varint_of_gt v (by omega)] at h1
    have hne : encode_varint (v / 128) ≠ [] := encode_varint_ne_nil _
    have : 0 < (encode_varint (v / 128)).length := List.length_pos.mpr hne
    simp only [List.length_cons] at h1
    omega
  · intro h
    rw [encode_varint_of_le v h]
    rfl

/-! ### The reference decoder inverts the encoder -/

/-- Feeding an encoded varint to the decoder loop yields the encoded value
(scaled into the accumulator) and hands back the rest of the stream. -/
theorem parseVarintGo_encode (v : Nat) :
    ∀ rest shift acc,
      parseVarintGo (encode_varint v ++ rest) shift acc = some (acc + v * 2 ^ shift, rest) := by
  induction v using Nat.strong_induction_on with
  | _ v ih =>
    intro rest shift acc
    by_cases h : 127 < v
    · rw [encode_varint_of_gt v h]
      simp only [List.cons_append, parseVarintGo]
      rw [if_neg (by omega)]
      have hm : (v % 128 + 128) &&& 127 = v % 128 := by
        rw [and127_eq_mod]
        omega
      simp only [List.append_eq]
      rw [hm, ih (v / 128) (Nat.div_lt_self (by omega) (by norm_num))]
      have harith : acc + ((v % 128) <<< shift) + v / 128 * 2 ^ (shift + 7) =
          acc + v * 2 ^ shift := by
        rw [Nat.shiftLeft_eq]
        have hpow : (2 : Nat) ^ (shift + 7) = 2 ^ shift * 128 := by
          rw [pow_add]
          norm_num
        have hv : v % 128 + 128 * (v / 128) = v := Nat.mod_add_div v 128
        rw [hpow]
        have hfold : v % 128 * 2 ^ shift + v / 128 * (2 ^ shift * 128) =
            (v % 128 + 128 * (v / 128)) * 2 ^ shift := by ring
        rw [Nat.add_assoc, hfold, hv]
      rw [harith]
    · rw [encode_varint_of_le v (by omega)]
      simp only [List.cons_append, parseVarintGo]
      rw [if_pos (by omega : v < 128), Nat.shiftLeft_eq]
      simp

/-- Decoding an encoded varint recovers the value exactly. -/
theorem parseVarint_encode (v : Nat) (rest : List Nat) :
    parseVarint (encode_varint v ++ rest) = some (v, rest) := by
  unfold parseVarint
  rw [parseVarintGo_encode v rest 0 0]
  norm_num

/-- A single byte below 128 decodes to itself. -/
theorem parseVarint_single (t : Nat) (rest : List Nat) (h : t < 128) :
    parseVarint (t :: rest) = some (t, rest) := by
  unfold parseVarint parseVarintGo
  rw [if_pos h, Nat.shiftLeft_eq]
  norm_num

/-- The decoder loop always consumes at least one byte. -/
theorem parseVarintGo_consume :
    ∀ (bs : List Nat) (shift acc v : Nat) (rest : List Nat),
      parseVarintGo bs shift acc = some (v, rest) → rest.length < bs.length := by
  intro bs
  induction bs with
  | nil => intro shift acc v rest h; exact absurd h (by simp [parseVarintGo])
  | cons b tl ih =>
    intro shift acc v rest h
    simp only [parseVarintGo] at h
    by_cases hb : b < 128
    · rw [if_pos hb] at h
      simp only [Option.some.injEq, Prod.mk.injEq] at h
      simp [← h.2]
    · rw [if_neg hb] at h
      have := ih _ _ _ _ h
      simp only [List.length_cons]
      omega

/-- `parseVarint` always consumes at least one byte. -/
theorem parseVarint_consume (bs : List Nat) (v : Nat) (rest : List Nat)
    (h : parseVarint bs = some (v, rest)) : rest.length < bs.length :=
  parseVarintGo_consume bs 0 0 v rest h

/-- The empty message parses to no fields under any fuel. -/
theorem parseFieldsGo_nil (fuel : Nat) : parseFieldsGo fuel [] = some [] := by
  cases fuel <;> rfl

/-- The fuel argument of `parseFieldsGo` is irrelevant once it is at least
the length of the input (each parsed field consumes at least one byte). -/
theorem parseFieldsGo_congr (f : Nat) :
    ∀ (g : Nat) (bs : List Nat), bs.length ≤ f → bs.length ≤ g →
      parseFieldsGo f bs = parseFieldsGo g bs := by
  induction f with
  | zero =>
    intro g bs hf _
    have : bs = [] := List.length_eq_zero.mp (by omega)
    subst this
    rw [parseFieldsGo_nil, parseFieldsGo_nil]
  | succ f ih =>
    intro g bs hf hg
    cases bs with
    | nil => rw [parseFieldsGo_nil, parseFieldsGo_nil]
    | cons b tl =>
      cases g with
      | zero => simp at hg
      | succ g =>
        simp only [parseFieldsGo]
        cases htag : parseVarint (b :: tl) with
        | none => rfl
        | some p =>
          obtain ⟨tag, rest⟩ := p
          dsimp only
          have hrest : rest.length < tl.length + 1 := parseVarint_consume _ _ _ htag
          by_cases h0 : tag &&& 7 = 0
          · rw [if_pos h0, if_pos h0]
            cases hv : parseVarint rest with
            | none => rfl
            | some q =>
              obtain ⟨v, rest2⟩ := q
              dsimp only
              have hr2 : rest2.length < rest.length := parseVarint_consume _ _ _ hv
              rw [ih g rest2 (by simp at hf; omega) (by simp at hg; omega)]
          · rw [if_neg h0, if_neg h0]
            by_cases h2 : tag &&& 7 = 2
            · rw [if_pos h2, if_pos h2]
              cases hv : parseVarint rest with
              | none => rfl
              | some q =>
                obtain ⟨n, rest2⟩ := q
                dsimp only
                have hr2 : rest2.length < rest.length := parseVarint_consume _ _ _ hv
                by_cases hn : n ≤ rest2.length
                · rw [if_pos hn, if_pos hn]
                  have hdrop : (rest2.drop n).length ≤ rest2.length := by
                    simp [List.length_drop]
                  rw [ih g (rest2.drop n) (by simp at hf; omega) (by simp at hg; omega)]
                · rw [if_neg hn, if_neg hn]
            · rw [if_neg h2, if_neg h2]

/-- Parsing with length fuel equals parsing with any sufficient fuel. -/
theorem parseMessage_eq_go (fuel : Nat) (bs : List Nat) (h : bs.length ≤ fuel) :
    parseFieldsGo fuel bs = parseMessage bs :=
  parseFieldsGo_congr fuel bs.length bs h le_rfl

/-- Parsing a length-delimited field followed by more bytes peels off that
field: the parser reads the tag, the encoded length, and exactly the
payload, then continues with the rest. -/
theorem parseMessage_lenField (t : Nat) (p rest : List Nat)
    (ht : t < 128) (hw : t &&& 7 = 2) :
    parseMessage (lenField t p ++ rest) =
      Option.map (fun l => (t >>> 3, PBValue.lenDelim p) :: l) (parseMessage rest) := by
  have hshape : lenField t p ++ rest = t :: (encode_varint p.length ++ (p ++ rest)) := by
    simp [lenField, List.append_assoc]
  rw [hshape]
  show parseFieldsGo (t :: (encode_varint p.length ++ (p ++ rest))).length _ = _
  simp only [List.length_cons]
  simp only [parseFieldsGo]
  rw [parseVarint_single t _ ht]
  dsimp only
  rw [if_neg (by omega), if_pos hw]
  rw [parseVarint_encode p.length (p ++ rest)]
  dsimp only
  rw [if_pos (by simp)]
  rw [List.take_left, List.drop_left]
  rw [parseMessage_eq_go _ rest (by simp only [List.length_append]; omega)]
  cases parseMessage rest <;> rfl

/-- Parsing a varint field followed by more bytes peels off that field. -/
theorem parseMessage_varintField (t v : Nat) (rest : List Nat)
    (ht : t < 128) (hw : t &&& 7 = 0) :
    parseMessage (varintField t v ++ rest) =
      Option.map (fun l => (t >>> 3, PBValue.varint v) :: l) (parseMessage rest) := by
  have hshape : varintField t v ++ rest = t :: (encode_varint v ++ rest) := by
    simp [varintField]
  rw [hshape]
  show parseFieldsGo (t :: (encode_varint v ++ rest)).length _ = _
  simp only [List.length_cons]
  simp only [parseFieldsGo]
  rw [parseVarint_single t _ ht]
  dsimp only
  rw [if_pos hw]
  rw [parseVarint_encode v rest]
  dsimp only
  rw [parseMessage_eq_go _ rest (by simp only [List.length_append]; omega)]
  cases parseMessage rest <;> rfl

/-- Parsing a run of repeated length-delimited fields yields one decoded
field per payload, in order. -/
theorem parseMessage_repeatedLenFields (t : Nat) (ht : t < 128) (hw : t &&& 7 = 2) :
    ∀ (ms : List (List Nat)) (rest : List Nat),
      parseMessage (repeatedLenFields t ms ++ rest) =
        Option.map (fun l => ms.map (fun m => (t >>> 3, PBValue.lenDelim m)) ++ l)
          (parseMessage rest) := by
  intro ms
  induction ms with
  | nil =>
    intro rest
    simp only [repeatedLenFields, List.nil_append, List.map_nil]
    cases parseMessage rest <;> rfl
  | cons m tl ih =>
    intro rest
    simp only [repeatedLenFields, List.append_assoc]
    rw [parseMessage_lenField t m _ ht hw, ih rest]
    cases parseMessage rest <;> rfl

/-! ### Decoding the composed messages -/

/-- Parsing a raw transaction recovers the body bytes, the auth-info bytes
and the signatures, in order, each under its proper field number. -/
theorem parseMessage_create_tx_raw (tx_body auth_info : List Nat)
    (signatures : List (List Nat)) :
    parseMessage (create_tx_raw tx_body auth_info signatures) =
      some ((1, PBValue.lenDelim tx_body) :: (2, PBValue.lenDelim auth_info) ::
        signatures.map (fun s => (3, PBValue.lenDelim s))) := by
  have hnil : parseMessage [] = some [] := rfl
  have e1 : (10 : Nat) >>> 3 = 1 := by decide
  have e2 : (18 : Nat) >>> 3 = 2 := by decide
  have e3 : (26 : Nat) >>> 3 = 3 := by decide
  unfold create_tx_raw
  rw [parseMessage_lenField 0x0a tx_body _ (by norm_num) (by decide)]
  rw [parseMessage_lenField 0x12 auth_info _ (by norm_num) (by decide)]
  have htail := parseMessage_repeatedLenFields 0x1a (by norm_num) (by decide) signatures []
  rw [List.append_nil] at htail
  rw [htail, hnil, e1, e2, e3]
  simp

/-- Parsing a transaction body recovers one field-1 entry per message, the
memo under field 2 with its UTF-8 bytes, and the zero timeout height under
field 3. -/
theorem parseMessage_create_tx_body (messages : List (List Nat)) (memo : String) :
    parseMessage (create_tx_body messages memo) =
      some (messages.map (fun m => (1, PBValue.lenDelim m)) ++
        [(2, PBValue.lenDelim (utf8Encode memo)), (3, PBValue.varint 0)]) := by
  have hnil : parseMessage [] = some [] := rfl
  have e1 : (10 : Nat) >>> 3 = 1 := by decide
  have e2 : (18 : Nat) >>> 3 = 2 := by decide
  have e3 : (24 : Nat) >>> 3 = 3 := by decide
  unfold create_tx_body
  rw [parseMessage_repeatedLenFields 0x0a (by norm_num) (by decide) messages]
  rw [parseMessage_lenField 0x12 (utf8Encode memo) _ (by norm_num) (by decide)]
  have htail := parseMessage_varintField 0x18 0 [] (by norm_num) (by decide)
  rw [List.append_nil] at htail
  rw [htail, hnil, e1, e2, e3]
  simp

/-- Parsing an auth info recovers the signer info under field 1 and the fee
under field 2, and parsing those recovers the sequence (field 3 of the
signer info) and the gas limit (field 2 of the fee). -/
theorem parseMessage_create_auth_info (sequence gas_limit : Nat) :
    parseMessage (create_auth_info sequence gas_limit) =
      some [(1, PBValue.lenDelim (varintField 0x18 sequence)),
        (2, PBValue.lenDelim (varintField 0x10 gas_limit))] ∧
    parseMessage (varintField 0x18 sequence) = some [(3, PBValue.varint sequence)] ∧
    parseMessage (varintField 0x10 gas_limit) = some [(2, PBValue.varint gas_limit)] := by
  have hnil : parseMessage [] = some [] := rfl
  have e1 : (10 : Nat) >>> 3 = 1 := by decide
  have e2 : (18 : Nat) >>> 3 = 2 := by decide
  have e3 : (24 : Nat) >>> 3 = 3 := by decide
  have e4 : (16 : Nat) >>> 3 = 2 := by decide
  refine ⟨?_, ?_, ?_⟩
  · unfold create_auth_info
    rw [parseMessage_lenField 0x0a (varintField 0x18 sequence) _ (by norm_num) (by decide)]
    have htail := parseMessage_lenField 0x12 (varintField 0x10 gas_limit) []
      (by norm_num) (by decide)
    rw [List.append_nil] at htail
    rw [htail, hnil, e1, e2]
    simp
  · have h := parseMessage_varintField 0x18 sequence [] (by norm_num) (by decide)
    rw [List.append_nil] at h
    rw [h, hnil, e3]
    simp
  · have h := parseMessage_varintField 0x10 gas_limit [] (by norm_num) (by decide)
    rw [List.append_nil] at h
    rw [h, hnil, e4]
    simp

/-! ### Hex decoding -/

/-- Hex digits are not ASCII whitespace. -/
theorem hexVal_isSome_not_ws (c : Char) (h : (hexVal c).isSome) : isAsciiWs c = false := by
  unfold hexVal at h
  simp only [isAsciiWs, decide_eq_false_iff_not]
  split_ifs at h with h1 h2 h3
  · omega
  · omega
  · omega
  · simp at h

/-- A string of hex digits of even length decodes to one byte per digit
pair. -/
theorem bytes_fromhex_all_hex :
    ∀ l : List Char, (∀ c ∈ l, (hexVal c).isSome) → l.length % 2 = 0 →
      ∃ bs, bytes_fromhex l = some bs ∧ bs.length = l.length / 2 := by
  intro l
  induction l using bytes_fromhex.induct with
  | case1 =>
    intro _ _
    exact ⟨[], rfl, rfl⟩
  | case2 c cs2 hws ih =>
    intro hhex _
    have := hexVal_isSome_not_ws c (hhex c (by simp))
    rw [this] at hws
    simp at hws
  | case3 c cs2 hws hc =>
    intro hhex _
    have := hhex c (by simp)
    rw [hc] at this
    simp at this
  | case4 c hws hi hc =>
    intro _ hpar
    simp at hpar
  | case5 c hws hi hc d cs2 hd =>
    intro hhex _
    have := hhex d (by simp)
    rw [hd] at this
    simp at this
  | case6 c hws hi hc d cs2 lo hd hrec ih =>
    intro hhex hpar
    obtain ⟨bs, hbs, _⟩ := ih
      (fun x hx => hhex x (by simp at hx ⊢; tauto))
      (by simp at hpar ⊢; omega)
    rw [hrec] at hbs
    exact absurd hbs (by simp)
  | case7 c hws hi hc d cs2 lo hd bs hrec ih =>
    intro hhex hpar
    obtain ⟨bs2, hbs2, hlen⟩ := ih
      (fun x hx => hhex x (by simp at hx ⊢; tauto))
      (by simp at hpar ⊢; omega)
    rw [hrec] at hbs2
    obtain rfl : bs = bs2 := by
      exact (Option.some.injEq _ _ ▸ hbs2)
    refine ⟨(16 * hi + lo) :: bs, ?_, ?_⟩
    · simp only [bytes_fromhex]
      rw [if_neg hws, hc, hd, hrec]
    · simp only [List.length_cons]
      omega

/-- Every character of a successfully hex-decoded string is a hex digit or
ASCII whitespace. -/
theorem bytes_fromhex_some_chars :
    ∀ l : List Char, (∃ bs, bytes_fromhex l = some bs) →
      ∀ c ∈ l, (hexVal c).isSome ∨ isAsciiWs c = true := by
  intro l
  induction l using bytes_fromhex.induct with
  | case1 =>
    intro _ c hc
    simp at hc
  | case2 c cs2 hws ih =>
    intro hsome x hx
    simp only [bytes_fromhex, if_pos hws] at hsome
    rcases List.mem_cons.mp hx with hx | hx
    · subst hx
      exact Or.inr hws
    · exact ih hsome x hx
  | case3 c cs2 hws hc =>
    intro hsome _ _
    simp only [bytes_fromhex, if_neg hws, hc] at hsome
    exact absurd hsome (by simp)
  | case4 c hws hi hc =>
    intro hsome _ _
    simp only [bytes_fromhex, if_neg hws, hc] at hsome
    exact absurd hsome (by simp)
  | case5 c hws hi hc d cs2 hd =>
    intro hsome _ _
    simp only [bytes_fromhex, if_neg hws, hc, hd] at hsome
    exact absurd hsome (by simp)
  | case6 c hws hi hc d cs2 lo hd hrec ih =>
    intro hsome _ _
    simp only [bytes_fromhex, if_neg hws, hc, hd, hrec] at hsome
    exact absurd hsome (by simp)
  | case7 c hws hi hc d cs2 lo hd bs hrec ih =>
    intro _ x hx
    rcases List.mem_cons.mp hx with hx | hx
    · subst hx
      exact Or.inl (by simp [hc])
    · rcases List.mem_cons.mp hx with hx | hx
      · subst hx
        exact Or.inl (by simp [hd])
      · exact ih ⟨bs, hrec⟩ x hx

/-! ### Agreement of the two encoder embeddings on the unsigned domain -/

/-- On nonnegative inputs the full-domain embedding of `encode_varint`
computes the same bytes as the unsigned embedding. -/
theorem encode_varint_int_ofNat (n : Nat) :
    encode_varint_int (n : Int) = encode_varint n := by
  induction n using Nat.strong_induction_on with
  | _ n ih =>
    rw [encode_varint_int]
    by_cases h : 127 < n
    · have hdiv : (n : Int) / 128 = ((n / 128 : Nat) : Int) := by omega
      have hhead : ((n : Int) % 128 + 128).toNat = n % 128 + 128 := by omega
      rw [if_pos (by exact_mod_cast h), encode_varint_of_gt n h, hdiv,
        ih (n / 128) (Nat.div_lt_self (by omega) (by norm_num)), hhead]
    · rw [if_neg (by exact_mod_cast h), encode_varint_of_le n (by omega)]
      congr 1
      omega

/-! ### Bridging the spec's generic wire-field writer to the inline code -/

/-- A generic length-delimited write with a sub-128 tag is exactly the
inline single-tag-byte pattern of the source. -/
theorem writeLengthDelimited_eq_lenField (fnum : Nat) (p : List Nat)
    (h : (fnum <<< 3) ||| 2 ≤ 127) :
    writeLengthDelimited fnum p = lenField ((fnum <<< 3) ||| 2) p := by
  unfold writeLengthDelimited lenField
  rw [encode_varint_of_le _ h]
  rfl

/-- The source's repeated-field loop is concatenation of the individual
fields. -/
theorem repeatedLenFields_eq_flatten (t : Nat) (ms : List (List Nat)) :
    repeatedLenFields t ms = (ms.map (lenField t)).flatten := by
  induction ms with
  | nil => rfl
  | cons m tl ih => simp [repeatedLenFields, ih]

/-! ### The claims -/

/-- Claim C1: for every unsigned integer `v`, `encode_varint v` is the
canonical base-128 varint of `v`: its length is `ceil(bit_length(v)/7)`
with a minimum of 1 byte, every byte except the last has the continuation
bit set, the last byte has it clear, and the encoding is one byte iff
`v ≤ 127`. -/
theorem claim_C1_varint_canonical (v : Nat) :
    (encode_varint v).length = max 1 ((Nat.size v + 6) / 7) ∧
    (∀ i, i + 1 < (encode_varint v).length → 128 ≤ (encode_varint v).getD i 0) ∧
    (∀ b, (encode_varint v).getLast? = some b → b < 128) ∧
    ((encode_varint v).length = 1 ↔ v ≤ 127) :=
  ⟨encode_varint_length v, encode_varint_continuation v, encode_varint_last v,
    encode_varint_length_one v⟩

/-- Witness for C1 at `v = 300` (whose encoding is `[172, 2]`). -/
theorem claim_C1_varint_canonical_witness :
    (encode_varint 300).length = max 1 ((Nat.size 300 + 6) / 7) ∧
    128 ≤ (encode_varint 300).getD 0 0 ∧ (2 : Nat) < 128 ∧
    ((encode_varint 300).length = 1 ↔ (300 : Nat) ≤ 127) :=
  ⟨(claim_C1_varint_canonical 300).1,
    (claim_C1_varint_canonical 300).2.1 0 (by decide),
    (claim_C1_varint_canonical 300).2.2.1 2 (by decide),
    (claim_C1_varint_canonical 300).2.2.2⟩

/-- Claim C2: for every `v` in `[0, 2^63)` the reference decoder inverts
`encode_varint`, and in particular the boundary gas-limit values `0` and
`2^32 - 1` round-trip losslessly. -/
theorem claim_C2_varint_roundtrip (v : Nat) (_h : v < 2 ^ 63) :
    parseVarint (encode_varint v) = some (v, []) ∧
    parseVarint (encode_varint 0) = some (0, []) ∧
    parseVarint (encode_varint (2 ^ 32 - 1)) = some (2 ^ 32 - 1, []) := by
  have hgen : ∀ w : Nat, parseVarint (encode_varint w) = some (w, []) := by
    intro w
    have hw := parseVarint_encode w []
    rwa [List.append_nil] at hw
  exact ⟨hgen v, hgen 0, hgen _⟩

/-- Witness for C2 at the upper boundary gas-limit value `2^32 - 1`. -/
theorem claim_C2_varint_roundtrip_witness :
    parseVarint (encode_varint (2 ^ 32 - 1)) = some (2 ^ 32 - 1, []) ∧
    (2 ^ 32 - 1 : Nat) < 2 ^ 63 :=
  ⟨(claim_C2_varint_roundtrip (2 ^ 32 - 1) (by norm_num)).1, by norm_num⟩

/-- Claim C3: for every payload and field number in `[1, 15]`, the emitted
length-delimited field is the one-byte tag `(f <<< 3) ||| 2`, then the
varint of the payload length, then the payload verbatim; its total length
is `1 + len(varint(len p)) + len p` and its first byte is the tag. The
generic writer is realized by the inline tag bytes of `create_any_message`
(fields 1 and 2) and `create_tx_raw` (fields 1, 2 and repeated 3). -/
theorem claim_C3_length_delimited (f : Nat) (p : List Nat) (h1 : 1 ≤ f) (h2 : f ≤ 15) :
    writeLengthDelimited f p = ((f <<< 3) ||| 2) :: (encode_varint p.length ++ p) ∧
    (writeLengthDelimited f p).length = 1 + (encode_varint p.length).length + p.length ∧
    (writeLengthDelimited f p).head? = some ((f <<< 3) ||| 2) ∧
    (∀ url m, create_any_message url m =
      writeLengthDelimited 1 (utf8Encode url) ++ writeLengthDelimited 2 m) ∧
    (∀ body auth sigs, create_tx_raw body auth sigs =
      writeLengthDelimited 1 body ++
        (writeLengthDelimited 2 auth ++ (sigs.map (writeLengthDelimited 3)).flatten)) := by
  have htag : ∀ g : Nat, g ≤ 15 → (g <<< 3) ||| 2 = 8 * g + 2 := by decide
  have h127 : (f <<< 3) ||| 2 ≤ 127 := by
    rw [htag f h2]
    omega
  have hfst : writeLengthDelimited f p = ((f <<< 3) ||| 2) :: (encode_varint p.length ++ p) :=
    writeLengthDelimited_eq_lenField f p h127
  have t1 : (1 <<< 3) ||| 2 = 10 := by decide
  have t2 : (2 <<< 3) ||| 2 = 18 := by decide
  have t3 : (3 <<< 3) ||| 2 = 26 := by decide
  refine ⟨hfst, ?_, ?_, ?_, ?_⟩
  · rw [hfst]
    simp only [List.length_cons, List.length_append]
    omega
  · rw [hfst]
    rfl
  · intro url m
    rw [writeLengthDelimited_eq_lenField 1 _ (by decide),
      writeLengthDelimited_eq_lenField 2 _ (by decide), t1, t2]
    rfl
  · intro body auth sigs
    rw [writeLengthDelimited_eq_lenField 1 _ (by decide),
      writeLengthDelimited_eq_lenField 2 _ (by decide), t1, t2]
    have hmap : sigs.map (writeLengthDelimited 3) = sigs.map (lenField 26) := by
      apply List.map_congr_left
      intro s _
      rw [writeLengthDelimited_eq_lenField 3 _ (by decide), t3]
    rw [hmap, ← repeatedLenFields_eq_flatten]
    rfl

/-- Witness for C3 at field number 2 and payload `[171]`. -/
theorem claim_C3_length_delimited_witness :
    (writeLengthDelimited 2 [171]).head? = some ((2 <<< 3) ||| 2) ∧
    (writeLengthDelimited 2 [171]).length = 1 + (encode_varint 1).length + 1 :=
  ⟨(claim_C3_length_delimited 2 [171] (by norm_num) (by norm_num)).2.2.1,
    (claim_C3_length_delimited 2 [171] (by norm_num) (by norm_num)).2.1⟩

/-- Claim C4: for every body, auth-info and signature list, the raw
transaction is field 1 (body), field 2 (auth info), then one field-3 entry
per signature in order, with exact length prefixes, so the reference
protobuf parser recovers exactly the inputs. -/
theorem claim_C4_tx_raw_roundtrip (tx_body auth_info : List Nat)
    (signatures : List (List Nat)) :
    parseMessage (create_tx_raw tx_body auth_info signatures) =
      some ((1, PBValue.lenDelim tx_body) :: (2, PBValue.lenDelim auth_info) ::
        signatures.map (fun s => (3, PBValue.lenDelim s))) :=
  parseMessage_create_tx_raw tx_body auth_info signatures

/-- Claim C5 (amended): a `thor1` address whose remainder is exactly 40 hex
digits decodes to exactly 20 bytes; a bad head fails with the
prefix-mismatch reason; a remainder of the wrong length fails with the
wrong-length reason; and a remainder containing a character that is neither
a hex digit nor ASCII whitespace fails with the invalid-hex reason. (The
unamended claim is false: the underlying hex decoder skips ASCII
whitespace, so a 40-character remainder of hex pairs padded with spaces
decodes successfully — to fewer than 20 bytes — instead of failing.) -/
theorem claim_C5_address_validation (addr : String) :
    (addr.data.take 5 = thorHrp → (addr.data.drop 5).length = 40 →
      (∀ c ∈ addr.data.drop 5, (hexVal c).isSome) →
      ∃ bs, thor_address_to_bytes addr = Except.ok bs ∧ bs.length = 20) ∧
    (addr.data.take 5 ≠ thorHrp →
      thor_address_to_bytes addr = Except.error AddrError.hrpMismatch) ∧
    (addr.data.take 5 = thorHrp → (addr.data.drop 5).length ≠ 40 →
      thor_address_to_bytes addr = Except.error AddrError.wrongLength) ∧
    (addr.data.take 5 = thorHrp → (addr.data.drop 5).length = 40 →
      (∃ c ∈ addr.data.drop 5, hexVal c = none ∧ isAsciiWs c = false) →
      thor_address_to_bytes addr = Except.error AddrError.invalidHex) := by
  refine ⟨?_, ?_, ?_, ?_⟩
  · intro hpre hlen hhex
    obtain ⟨bs, hbs, hbl⟩ := bytes_fromhex_all_hex _ hhex (by omega)
    refine ⟨bs, ?_, by omega⟩
    unfold thor_address_to_bytes
    rw [if_pos hpre, if_pos hlen, hbs]
  · intro hpre
    unfold thor_address_to_bytes
    rw [if_neg hpre]
  · intro hpre hlen
    unfold thor_address_to_bytes
    rw [if_pos hpre, if_neg hlen]
  · intro hpre hlen hbad
    obtain ⟨c, hc, hnone, hnws⟩ := hbad
    have hdec : bytes_fromhex (addr.data.drop 5) = none := by
      cases hfh : bytes_fromhex (addr.data.drop 5) with
      | none => rfl
      | some bs =>
        rcases bytes_fromhex_some_chars _ ⟨bs, hfh⟩ c hc with hh | hh
        · rw [hnone] at hh
          simp at hh
        · rw [hnws] at hh
          simp at hh
    unfold thor_address_to_bytes
    rw [if_pos hpre, if_pos hlen, hdec]

/-- Counterexample to C5 as stated: the remainder of this address has the
right length and contains a non-hex character (a space), yet decoding
succeeds — with 19 bytes — because `bytes.fromhex` skips ASCII whitespace. -/
theorem claim_C5_address_validation_counterexample :
    (' ' ∈ "thor100000000000000000000000000000000000000  ".data.drop 5) ∧
    hexVal ' ' = none ∧
    ("thor100000000000000000000000000000000000000  ".data.drop 5).length = 40 ∧
    thor_address_to_bytes "thor100000000000000000000000000000000000000  " =
      Except.ok (List.replicate 19 0) :=
  ⟨by decide, by decide, by decide, by rfl⟩

/-- Witness for C5 (amended) at the reference address and at a `cosm1`
address. -/
theorem claim_C5_address_validation_witness :
    (∃ bs, thor_address_to_bytes "thor1a3eb9d2cbea51896c33209f2bb5ff979a44201a2" =
      Except.ok bs ∧ bs.length = 20) ∧
    thor_address_to_bytes "cosm1a3eb9d2cbea51896c33209f2bb5ff979a44201a2" =
      Except.error AddrError.hrpMismatch :=
  ⟨(claim_C5_address_validation "thor1a3eb9d2cbea51896c33209f2bb5ff979a44201a2").1
      (by decide) (by decide) (by decide),
    (claim_C5_address_validation "cosm1a3eb9d2cbea51896c33209f2bb5ff979a44201a2").2.1
      (by decide)⟩

/-- Claim C6: the transaction body's field-2 entry carries the memo's UTF-8
bytes with a length prefix equal to the UTF-8 byte length (the parsed field
is exactly `utf8Encode memo`, and the emitted bytes length-prefix exactly
`(utf8Encode memo).length`), and an empty memo still produces a field-2
entry (with payload `[]`) rather than omitting the field. -/
theorem claim_C6_memo_field (messages : List (List Nat)) (memo : String) :
    parseMessage (create_tx_body messages memo) =
      some (messages.map (fun m => (1, PBValue.lenDelim m)) ++
        [(2, PBValue.lenDelim (utf8Encode memo)), (3, PBValue.varint 0)]) ∧
    create_tx_body messages memo =
      repeatedLenFields 0x0a messages ++
        ((0x12 :: (encode_varint (utf8Encode memo).length ++ utf8Encode memo)) ++
          varintField 0x18 0) :=
  ⟨parseMessage_create_tx_body messages memo, rfl⟩

/-! ### The end-to-end scenario of the reference demo -/

/-- The address used by the end-to-end scenario (from = to). -/
def exThorAddr : String := "thor1a3eb9d2cbea51896c33209f2bb5ff979a44201a2"

/-- The 20 bytes its 40-character hex remainder decodes to. -/
def exAddrBytes : List Nat :=
  [0xa3, 0xeb, 0x9d, 0x2c, 0xbe, 0xa5, 0x18, 0x96, 0xc3, 0x32,
    0x09, 0xf2, 0xbb, 0x5f, 0xf9, 0x79, 0xa4, 0x42, 0x01, 0xa2]

/-- The MsgSend bytes for from = to = `exThorAddr`. -/
def exMsgSend : List Nat := msgsend_fields exAddrBytes exAddrBytes

/-- The Any envelope around `exMsgSend`. -/
def exAnyMsg : List Nat := create_any_message "/types.MsgSend" exMsgSend

/-- The transaction body with the single envelope and empty memo. -/
def exTxBody : List Nat := create_tx_body [exAnyMsg] ""

/-- The auth info with sequence 0 and gas limit 200000. -/
def exAuthInfo : List Nat := create_auth_info 0 200000

/-- The dummy signature: 64 zero bytes. -/
def exSignature : List Nat := List.replicate 64 0

/-- The raw transaction of the scenario. -/
def exTxRaw : List Nat := create_tx_raw exTxBody exAuthInfo [exSignature]

set_option maxRecDepth 10000 in
/-- Claim C7: on the scenario inputs (from = to = `exThorAddr`, empty memo,
sequence 0, gas limit 200000, one 64-byte all-zero signature), the pipeline
produces a raw transaction whose decoded body holds exactly one Any
envelope with type URL `/types.MsgSend`, and whose decoded auth info holds
exactly one signer info with sequence 0 and a fee with gas limit 200000. -/
theorem claim_C7_scenario :
    thor_address_to_bytes exThorAddr = Except.ok exAddrBytes ∧
    create_thor_tx_raw exThorAddr exThorAddr "" = Except.ok exTxRaw ∧
    parseMessage exTxRaw = some [(1, PBValue.lenDelim exTxBody),
      (2, PBValue.lenDelim exAuthInfo), (3, PBValue.lenDelim exSignature)] ∧
    parseMessage exTxBody = some [(1, PBValue.lenDelim exAnyMsg),
      (2, PBValue.lenDelim []), (3, PBValue.varint 0)] ∧
    parseMessage exAnyMsg = some [(1, PBValue.lenDelim (utf8Encode "/types.MsgSend")),
      (2, PBValue.lenDelim exMsgSend)] ∧
    utf8Encode "/types.MsgSend" =
      [47, 116, 121, 112, 101, 115, 46, 77, 115, 103, 83, 101, 110, 100] ∧
    parseMessage exAuthInfo = some [(1, PBValue.lenDelim (varintField 0x18 0)),
      (2, PBValue.lenDelim (varintField 0x10 200000))] ∧
    parseMessage (varintField 0x18 0) = some [(3, PBValue.varint 0)] ∧
    parseMessage (varintField 0x10 200000) = some [(2, PBValue.varint 200000)] ∧
    exSignature = List.replicate 64 0 :=
  ⟨by rfl, by rfl, by decide, by decide, by decide, by decide, by decide,
    by decide, by decide, by rfl⟩

/-- Claim C8: the pipeline is deterministic — its value does not depend on
the ambient world (time, entropy, prior output), and rerunning it on the
world left by a first run returns the same value. -/
theorem claim_C8_determinism (w₁ w₂ : World) (from_addr to_addr memo : String) :
    (create_thor_transaction_run w₁ from_addr to_addr memo).2 =
      (create_thor_transaction_run w₂ from_addr to_addr memo).2 ∧
    (create_thor_transaction_run
        ((create_thor_transaction_run w₁ from_addr to_addr memo).1)
        from_addr to_addr memo).2 =
      (create_thor_transaction_run w₁ from_addr to_addr memo).2 :=
  ⟨rfl, rfl⟩

/-- Claim C9: whenever both addresses decode, the built transaction uses
sequence 0, gas limit 200000, timeout height 0 and exactly one signature of
64 zero bytes; the output is determined by the from-address, to-address and
memo alone, the other pipeline parameters being constants of the code. -/
theorem claim_C9_fixed_parameters (from_addr to_addr memo : String)
    (from_bytes to_bytes : List Nat)
    (hf : thor_address_to_bytes from_addr = Except.ok from_bytes)
    (ht : thor_address_to_bytes to_addr = Except.ok to_bytes) :
    create_thor_tx_raw from_addr to_addr memo = Except.ok
      (create_tx_raw
        (create_tx_body
          [create_any_message "/types.MsgSend" (msgsend_fields from_bytes to_bytes)] memo)
        (create_auth_info 0 200000) [List.replicate 64 0]) ∧
    parseMessage (create_tx_raw
        (create_tx_body
          [create_any_message "/types.MsgSend" (msgsend_fields from_bytes to_bytes)] memo)
        (create_auth_info 0 200000) [List.replicate 64 0]) =
      some [(1, PBValue.lenDelim (create_tx_body
          [create_any_message "/types.MsgSend" (msgsend_fields from_bytes to_bytes)] memo)),
        (2, PBValue.lenDelim (create_auth_info 0 200000)),
        (3, PBValue.lenDelim (List.replicate 64 0))] ∧
    parseMessage (create_tx_body
        [create_any_message "/types.MsgSend" (msgsend_fields from_bytes to_bytes)] memo) =
      some [(1, PBValue.lenDelim
          (create_any_message "/types.MsgSend" (msgsend_fields from_bytes to_bytes))),
        (2, PBValue.lenDelim (utf8Encode memo)), (3, PBValue.varint 0)] ∧
    parseMessage (create_auth_info 0 200000) =
      some [(1, PBValue.lenDelim (varintField 0x18 0)),
        (2, PBValue.lenDelim (varintField 0x10 200000))] ∧
    parseMessage (varintField 0x18 0) = some [(3, PBValue.varint 0)] ∧
    parseMessage (varintField 0x10 200000) = some [(2, PBValue.varint 200000)] := by
  refine ⟨?_, ?_, ?_, (parseMessage_create_auth_info 0 200000).1,
    (parseMessage_create_auth_info 0 200000).2.1,
    (parseMessage_create_auth_info 0 200000).2.2⟩
  · simp [create_thor_tx_raw, create_thor_msgsend, hf, ht, Except.bind, bind,
      Except.pure, pure]
  · rw [parseMessage_create_tx_raw]
    rfl
  · rw [parseMessage_create_tx_body]
    rfl

/-- Witness for C9 at the reference address with memo `"x"`. -/
theorem claim_C9_fixed_parameters_witness :
    create_thor_tx_raw exThorAddr exThorAddr "x" = Except.ok
      (create_tx_raw
        (create_tx_body
          [create_any_message "/types.MsgSend" (msgsend_fields exAddrBytes exAddrBytes)] "x")
        (create_auth_info 0 200000) [List.replicate 64 0]) :=
  (claim_C9_fixed_parameters exThorAddr exThorAddr "x" exAddrBytes exAddrBytes
    (by rfl) (by rfl)).1

/-- Claim C10: on every negative integer, `encode_varint` terminates
without error and returns the single byte `value & 0x7F` (the euclidean
residue mod 128), an encoding that does not represent the input. -/
theorem claim_C10_negative_input (value : Int) (h : value < 0) :
    encode_varint_int value = [(value % 128).toNat] ∧
    (value % 128).toNat ≤ 127 ∧
    ((value % 128).toNat : Int) ≠ value := by
  have h1 : (0 : Int) ≤ value % 128 := Int.emod_nonneg value (by norm_num)
  have h2 : value % 128 < 128 := Int.emod_lt_of_pos value (by norm_num)
  refine ⟨?_, by omega, by omega⟩
  rw [encode_varint_int, if_neg (by omega)]

/-- Witness for C10 at `value = -1`, whose single output byte is `0x7F`. -/
theorem claim_C10_negative_input_witness :
    encode_varint_int (-1) = [127] ∧ ((127 : Int) ≠ -1) := by
  have h := claim_C10_negative_input (-1) (by norm_num)
  have e : ((-1 : Int) % 128).toNat = 127 := by decide
  exact ⟨by rw [h.1, e], by norm_num⟩
